import Mathlib

/-!
Verification of the telnet byte-stream transport layer (telnetcmd.py).

The source under verification wraps a `telnetlib.Telnet` object:
- `_TelnetReader.read` / `read1` / `peek` (the Cooked Stream Reader),
- `_TelnetWriter.write` (the Escaping Writer),
- `TelnetRequestHandler.setup` (the Session Adapter).

The Raw Frame Parser (`telnetlib.Telnet.process_rawq`), the network fill
(`telnetlib.Telnet.fill_rawq`) and the queues/flags they maintain
(`cookedq`, `rawq`, `eof`) live in the Python standard library, outside the
repository's sources; they are modelled here from the specification's
state-machine description.  Bytes are modelled as `Nat`, the network as an
explicit list of pending chunks (`incoming`), and each Python method as a
pure state-passing function.
-/

namespace Telnetcmd

/-- Wire constants of the protocol (spec section 6). -/
def IAC : Nat := 255

def WILL : Nat := 251

def WONT : Nat := 252

def DO : Nat := 253

def DONT : Nat := 254

def SB : Nat := 250

def SE : Nat := 240

/-- Modelled from the spec: ParserState of the Raw Frame Parser, one of
NORMAL, SAW_CONTROL, SAW_OPTION_VERB, IN_SUBNEGOTIATION.  The spec's
accumulated partial-envelope bytes (the option verb, the subnegotiation
payload so far, and whether the payload scan just saw a ControlByte) are
carried as constructor arguments so that an envelope split across fills
resumes correctly. -/
inductive PState where
  | normal : PState
  | sawControl : PState
  | sawVerb (verb : Nat) : PState
  | inSubneg (acc : List Nat) : PState
  | inSubnegControl (acc : List Nat) : PState
deriving DecidableEq, Repr

/-- Modelled from the spec: an invocation of the negotiation callback,
with either (verb=None, command), (verb, option-code), or a
subnegotiation payload. -/
inductive NegEvent where
  | simple (command : Nat) : NegEvent
  | optionCmd (verb code : Nat) : NegEvent
  | subneg (payload : List Nat) : NegEvent
deriving DecidableEq, Repr

/-- Modelled from the spec: the per-session state owned by the
`telnetlib.Telnet` object — RawQueue, CookedQueue, ParserState, the
monotonic EndOfStream flag — together with the model of the underlying
connection: `incoming` is the list of byte chunks the network will still
deliver, and `events` records the negotiation-callback invocations. -/
structure TelnetState where
  rawq : List Nat
  cookedq : List Nat
  pstate : PState
  eof : Bool
  incoming : List (List Nat)
  events : List NegEvent
deriving DecidableEq, Repr

/-- Modelled from the spec: one step of the Raw Frame Parser's state
machine (spec section 4.1), consuming one byte and yielding the new
ParserState, the bytes appended to CookedQueue, and the callback
invocations made. -/
def stepByte : PState → Nat → PState × List Nat × List NegEvent
  | PState.normal, b =>
    if b = IAC then (PState.sawControl, [], [])
    else (PState.normal, [b], [])
  | PState.sawControl, b =>
    if b = IAC then (PState.normal, [IAC], [])
    else if b = WILL ∨ b = WONT ∨ b = DO ∨ b = DONT then (PState.sawVerb b, [], [])
    else if b = SB then (PState.inSubneg [], [], [])
    else (PState.normal, [], [NegEvent.simple b])
  | PState.sawVerb v, b => (PState.normal, [], [NegEvent.optionCmd v b])
  | PState.inSubneg acc, b =>
    if b = IAC then (PState.inSubnegControl acc, [], [])
    else (PState.inSubneg (acc ++ [b]), [], [])
  | PState.inSubnegControl acc, b =>
    if b = SE then (PState.normal, [], [NegEvent.subneg acc])
    else (PState.inSubneg (acc ++ [IAC, b]), [], [])

/-- Modelled from the spec: run the parser's state machine over a byte
sequence, collecting the cooked output and the callback invocations. -/
def runBytes : PState → List Nat → PState × List Nat × List NegEvent
  | p, [] => (p, [], [])
  | p, b :: rest =>
    ((runBytes (stepByte p b).1 rest).1,
     (stepByte p b).2.1 ++ (runBytes (stepByte p b).1 rest).2.1,
     (stepByte p b).2.2 ++ (runBytes (stepByte p b).1 rest).2.2)

/-- Modelled from the spec: `telnetlib.Telnet.process_rawq` — the
`classify()` operation: scans RawQueue from its start, moving literal
bytes to the tail of CookedQueue and consuming control envelopes; never
blocks; ParserState (with any partially-scanned envelope bytes, carried
inside `PState`) is preserved across calls. -/
def process_rawq (s : TelnetState) : TelnetState :=
  { s with
    rawq := []
    pstate := (runBytes s.pstate s.rawq).1
    cookedq := s.cookedq ++ (runBytes s.pstate s.rawq).2.1
    events := s.events ++ (runBytes s.pstate s.rawq).2.2 }

/-- Modelled from the spec: `telnetlib.Telnet.fill_rawq` — reads available
bytes from the underlying connection into RawQueue's tail; on connection
closure with no bytes available (here: no pending chunks), sets
EndOfStream. -/
def fill_rawq (s : TelnetState) : TelnetState :=
  match s.incoming with
  | [] => { s with eof := true }
  | c :: rest => { s with rawq := s.rawq ++ c, incoming := rest }

/-- Bound on the number of iterations the reader's fill-and-classify loop
can still execute: each iteration either consumes one pending chunk or
sets EndOfStream. -/
def loopFuel (s : TelnetState) : Nat :=
  s.incoming.length + (if s.eof then 0 else 1)

/-- The reader's fill-and-classify loop
(`while not self.telnet.eof and len(self.telnet.cookedq)<n:
fill_rawq(); process_rawq()`), with an explicit iteration bound; the
bound `loopFuel` is always sufficient (see `readLoopFuel_post`). -/
def readLoopFuel : Nat → TelnetState → Nat → TelnetState
  | 0, s, _ => s
  | f + 1, s, n =>
    if s.eof = false ∧ s.cookedq.length < n then
      readLoopFuel f (process_rawq (fill_rawq s)) n
    else s

/-- The reader's fill-and-classify loop run to completion. -/
def readLoop (s : TelnetState) (n : Nat) : TelnetState :=
  readLoopFuel (s.incoming.length + 1) s n

namespace TelnetReader

/-- Embeds `_TelnetReader.read` for a nonnegative byte count `n`
(the `readExact(n)` contract; the `n == -1` branch delegates to
`telnetlib.Telnet.read_all` and is not modelled): one `process_rawq`,
then the fill-and-classify loop, then
`buf, cookedq = cookedq[:n], cookedq[n:]`. -/
def read (s : TelnetState) (n : Nat) : List Nat × TelnetState :=
  ((readLoop (process_rawq s) n).cookedq.take n,
   { readLoop (process_rawq s) n with
       cookedq := (readLoop (process_rawq s) n).cookedq.drop n })

/-- The state after `read1`'s single optional fill: one `process_rawq`,
then, if the stream has not ended and CookedQueue is still short, exactly
one `fill_rawq` followed by one `process_rawq`. -/
def read1Mid (s : TelnetState) (n : Nat) : TelnetState :=
  if (process_rawq s).eof = false ∧ (process_rawq s).cookedq.length < n then
    process_rawq (fill_rawq (process_rawq s))
  else process_rawq s

/-- Embeds `_TelnetReader.read1` for a nonnegative byte count `n`:
at most one network fill, then
`buf, cookedq = cookedq[:n], cookedq[n:]`. -/
def read1 (s : TelnetState) (n : Nat) : List Nat × TelnetState :=
  ((read1Mid s n).cookedq.take n,
   { read1Mid s n with cookedq := (read1Mid s n).cookedq.drop n })

/-- Modelled from the spec: `telnetlib.Telnet.read_lazy`, the target of
`_TelnetReader.read1`'s default `n = -1` branch — `readAvailable()`:
classifies once, then returns and removes whatever is currently in
CookedQueue without forcing a network fill. -/
def read_lazy (s : TelnetState) : List Nat × TelnetState :=
  ((process_rawq s).cookedq, { process_rawq s with cookedq := [] })

/-- Embeds `_TelnetReader.read1` at its default argument `n = -1`, which
returns `self.telnet.read_lazy()`. -/
def read1Default (s : TelnetState) : List Nat × TelnetState :=
  read_lazy s

/-- Embeds `_TelnetReader.peek`: if `process_rawq` is true (the default),
scan the raw queue; then return (without removing) the whole CookedQueue
when `n` is negative, else its first `n` bytes. -/
def peek (s : TelnetState) (n : Int) (prq : Bool) : List Nat × TelnetState :=
  if n < 0 then
    ((if prq then process_rawq s else s).cookedq,
     if prq then process_rawq s else s)
  else
    ((if prq then process_rawq s else s).cookedq.take n.toNat,
     if prq then process_rawq s else s)

end TelnetReader

/-- Embeds `_TelnetWriter.write`'s escaping line
`data = data.replace(IAC, IAC+IAC)`: `bytes.replace` with a single-byte
pattern replaces each occurrence of 0xFF with two consecutive 0xFF
bytes. -/
def escapeIAC : List Nat → List Nat
  | [] => []
  | b :: rest => if b = IAC then IAC :: IAC :: escapeIAC rest else b :: escapeIAC rest

/-- The escaping rule as the specification words it: every occurrence of
ControlByte is replaced by two consecutive ControlByte occurrences, all
other bytes pass through unchanged and in order. -/
def specEscape (data : List Nat) : List Nat :=
  data.flatMap (fun b => if b = IAC then [IAC, IAC] else [b])

/-- Model of the underlying connection as seen by the Escaping Writer:
the bytes handed to it so far and the number of underlying write calls. -/
structure WriterState where
  written : List Nat
  writeCalls : Nat
deriving DecidableEq, Repr

namespace TelnetWriter

/-- Embeds `_TelnetWriter.write`: escape the data, hand the escaped
sequence to the underlying connection in a single write call, and return
that call's return value (the length of the escaped sequence, per
`io.BufferedWriter.write`). -/
def write (w : WriterState) (data : List Nat) : WriterState × Nat :=
  ({ written := w.written ++ escapeIAC data, writeCalls := w.writeCalls + 1 },
   (escapeIAC data).length)

end TelnetWriter

/-- A fresh parser state over a given wire byte sequence, as set up for a
new session: empty CookedQueue, ParserState NORMAL. -/
def initialState (wire : List Nat) : TelnetState :=
  { rawq := wire
    cookedq := []
    pstate := PState.normal
    eof := false
    incoming := []
    events := [] }

/-- All bytes the parser has yet to see: the unclassified RawQueue
followed by every chunk the network will still deliver. -/
def pendingBytes (s : TelnetState) : List Nat :=
  s.rawq ++ s.incoming.flatten

/-- The full cooked byte stream of a session from state `s` onward: what
is already in CookedQueue followed by everything the parser will produce
from the pending bytes. -/
def totalCooked (s : TelnetState) : List Nat :=
  s.cookedq ++ (runBytes s.pstate (pendingBytes s)).2.1

/-- A reader call: `readExact(n)` (`read` with `n ≥ 0`), `readAvailable()`
(`read1` at its default argument), or `read1(n)` with `n ≥ 0`. -/
inductive ReadOp where
  | rexact (n : Nat) : ReadOp
  | ravail : ReadOp
  | rone (n : Nat) : ReadOp
deriving DecidableEq, Repr

/-- Run one reader call, returning the bytes it hands the application and
the successor state. -/
def runOp (s : TelnetState) : ReadOp → List Nat × TelnetState
  | ReadOp.rexact n => TelnetReader.read s n
  | ReadOp.ravail => TelnetReader.read1Default s
  | ReadOp.rone n => TelnetReader.read1 s n

/-- Run a sequence of reader calls, concatenating the bytes returned. -/
def runOps (s : TelnetState) : List ReadOp → List Nat × TelnetState
  | [] => ([], s)
  | op :: rest =>
    ((runOp s op).1 ++ (runOps (runOp s op).2 rest).1,
     (runOps (runOp s op).2 rest).2)

/-! ### Helper lemmas -/

/-- Running the parser over a concatenation is running it over the two
parts in sequence, threading the ParserState and concatenating the cooked
output and the callback invocations. -/
theorem runBytes_append (p : PState) (xs ys : List Nat) :
    runBytes p (xs ++ ys) =
      ((runBytes (runBytes p xs).1 ys).1,
       (runBytes p xs).2.1 ++ (runBytes (runBytes p xs).1 ys).2.1,
       (runBytes p xs).2.2 ++ (runBytes (runBytes p xs).1 ys).2.2) := by
  induction xs generalizing p with
  | nil => simp [runBytes]
  | cons b rest ih => simp [runBytes, ih]

@[simp] theorem process_rawq_rawq (s : TelnetState) : (process_rawq s).rawq = [] := rfl

@[simp] theorem process_rawq_incoming (s : TelnetState) :
    (process_rawq s).incoming = s.incoming := rfl

@[simp] theorem process_rawq_eof (s : TelnetState) : (process_rawq s).eof = s.eof := rfl

/-- Classifying with an empty RawQueue changes nothing. -/
theorem process_rawq_of_rawq_nil (s : TelnetState) (h : s.rawq = []) :
    process_rawq s = s := by
  cases s with
  | mk rawq cookedq pstate eof incoming events =>
    simp only at h
    subst h
    simp [process_rawq, runBytes]

@[simp] theorem fill_rawq_incoming (s : TelnetState) :
    (fill_rawq s).incoming = s.incoming.tail := by
  cases h : s.incoming <;> simp [fill_rawq, h]

@[simp] theorem fill_rawq_cookedq (s : TelnetState) :
    (fill_rawq s).cookedq = s.cookedq := by
  cases h : s.incoming <;> simp [fill_rawq, h]

/-- One fill consumes at most one pending chunk. -/
theorem fill_rawq_incoming_length (s : TelnetState) :
    s.incoming.length ≤ (fill_rawq s).incoming.length + 1 := by
  cases h : s.incoming <;> simp [fill_rawq, h]

/-- A fill with pending chunks leaves the EndOfStream flag alone. -/
theorem fill_rawq_eof_of_ne (s : TelnetState) (h : s.incoming ≠ []) :
    (fill_rawq s).eof = s.eof := by
  cases hh : s.incoming with
  | nil => exact absurd hh h
  | cons c rest => simp [fill_rawq, hh]

/-- Classifying never adds or loses cooked bytes overall. -/
theorem totalCooked_process_rawq (s : TelnetState) :
    totalCooked (process_rawq s) = totalCooked s := by
  simp [totalCooked, process_rawq, pendingBytes, runBytes_append]

/-- Filling never adds or loses cooked bytes overall. -/
theorem totalCooked_fill_rawq (s : TelnetState) :
    totalCooked (fill_rawq s) = totalCooked s := by
  cases h : s.incoming with
  | nil => simp [totalCooked, fill_rawq, h, pendingBytes]
  | cons c rest => simp [totalCooked, fill_rawq, h, pendingBytes]

/-- Splitting the CookedQueue at `n` splits the total cooked stream. -/
theorem totalCooked_split (t : TelnetState) (n : Nat) :
    t.cookedq.take n ++ totalCooked { t with cookedq := t.cookedq.drop n } =
      totalCooked t := by
  simp [totalCooked, pendingBytes]
  rw [← List.append_assoc, List.take_append_drop]

/-- Each loop iteration strictly decreases the iteration bound. -/
theorem loopFuel_step (s : TelnetState) (h : s.eof = false) :
    loopFuel (process_rawq (fill_rawq s)) < loopFuel s := by
  cases hh : s.incoming with
  | nil => simp [loopFuel, fill_rawq, hh, h]
  | cons c rest => simp [loopFuel, fill_rawq, hh, h]

/-- With sufficient fuel the loop reaches its real exit condition:
either EndOfStream is set or CookedQueue holds at least `n` bytes. -/
theorem readLoopFuel_post (f : Nat) : ∀ (s : TelnetState) (n : Nat), loopFuel s ≤ f →
    (readLoopFuel f s n).eof = true ∨ n ≤ (readLoopFuel f s n).cookedq.length := by
  induction f with
  | zero =>
    intro s n hf
    have he : s.eof = true := by
      by_contra hc
      have : s.eof = false := by cases h : s.eof <;> simp_all
      simp [loopFuel, this] at hf
    simp [readLoopFuel, he]
  | succ k ih =>
    intro s n hf
    by_cases h : s.eof = false ∧ s.cookedq.length < n
    · have hlt := loopFuel_step s h.1
      have : loopFuel (process_rawq (fill_rawq s)) ≤ k := by omega
      simpa [readLoopFuel, h] using ih (process_rawq (fill_rawq s)) n this
    · rcases Decidable.not_and_iff_or_not.mp h with h1 | h2
      · have : s.eof = true := by cases hc : s.eof <;> simp_all
        simp [readLoopFuel, h, this]
      · simp [readLoopFuel, h]
        omega

/-- The loop's fuel bound is always sufficient. -/
theorem loopFuel_le (s : TelnetState) : loopFuel s ≤ s.incoming.length + 1 := by
  cases h : s.eof <;> simp [loopFuel, h]

/-- The loop exits only when EndOfStream is set or CookedQueue holds at
least `n` bytes. -/
theorem readLoop_post (s : TelnetState) (n : Nat) :
    (readLoop s n).eof = true ∨ n ≤ (readLoop s n).cookedq.length :=
  readLoopFuel_post _ s n (loopFuel_le s)

/-- The loop never adds or loses cooked bytes overall. -/
theorem totalCooked_readLoopFuel (f : Nat) : ∀ (s : TelnetState) (n : Nat),
    totalCooked (readLoopFuel f s n) = totalCooked s := by
  induction f with
  | zero => intro s n; rfl
  | succ k ih =>
    intro s n
    by_cases h : s.eof = false ∧ s.cookedq.length < n
    · simp [readLoopFuel, h, ih, totalCooked_process_rawq, totalCooked_fill_rawq]
    · simp [readLoopFuel, h]

/-- The loop run to completion never adds or loses cooked bytes overall. -/
theorem totalCooked_readLoop (s : TelnetState) (n : Nat) :
    totalCooked (readLoop s n) = totalCooked s :=
  totalCooked_readLoopFuel _ s n

/-- If EndOfStream is already set, the loop is a no-op. -/
theorem readLoopFuel_of_eof (f : Nat) (s : TelnetState) (n : Nat) (h : s.eof = true) :
    readLoopFuel f s n = s := by
  cases f <;> simp [readLoopFuel, h]

/-- In state NORMAL, the parser maps an escaped byte sequence back to the
original sequence, ending in NORMAL with no callback invocations. -/
theorem runBytes_escape (S : List Nat) :
    runBytes PState.normal (escapeIAC S) = (PState.normal, S, []) := by
  induction S with
  | nil => rfl
  | cons b rest ih =>
    by_cases hb : b = IAC
    · subst hb
      simp [escapeIAC, runBytes, stepByte, ih]
    · simp [escapeIAC, hb, runBytes, stepByte, ih]

/-- C1: for every byte sequence S, escaping S with the Escaping Writer's
rule (`_TelnetWriter.write`'s doubling of 0xFF) and then classifying the
escaped result with the Raw Frame Parser yields exactly S back as cooked
data, with ParserState returned to NORMAL. -/
theorem C1_roundtrip (S : List Nat) :
    (process_rawq (initialState (escapeIAC S))).cookedq = S ∧
    (process_rawq (initialState (escapeIAC S))).pstate = PState.normal := by
  simp [process_rawq, initialState, runBytes_escape]

/-- The `bytes.replace`-style escaping of the source equals the
specification's per-byte description of the escaping rule. -/
theorem escapeIAC_eq_specEscape (data : List Nat) : escapeIAC data = specEscape data := by
  induction data with
  | nil => rfl
  | cons b rest ih =>
    by_cases hb : b = IAC
    · subst hb
      simp [escapeIAC, specEscape, ih]
    · simp [escapeIAC, specEscape, hb, ih]

/-- C2: `_TelnetWriter.write` hands the underlying connection, in a
single write call, the input with every 0xFF replaced by two consecutive
0xFF bytes, all other bytes passed through unchanged and in order. -/
theorem C2_write (w : WriterState) (data : List Nat) :
    (TelnetWriter.write w data).1.written = w.written ++ specEscape data ∧
    (TelnetWriter.write w data).1.writeCalls = w.writeCalls + 1 := by
  simp [TelnetWriter.write, escapeIAC_eq_specEscape]

/-- The escaped sequence is longer than the input by exactly the number
of 0xFF bytes in the input. -/
theorem escapeIAC_length (data : List Nat) :
    (escapeIAC data).length = data.length + data.count IAC := by
  induction data with
  | nil => rfl
  | cons b rest ih =>
    by_cases hb : b = IAC
    · subst hb
      simp [escapeIAC, ih, List.count_cons_self]
      omega
    · simp [escapeIAC, hb, ih, List.count_cons_of_ne (fun h => hb h.symm)]
      omega

/-- C9: `_TelnetWriter.write` returns the length of the escaped sequence
actually written, i.e. the input length plus the number of 0xFF bytes in
the input — strictly more than the input length whenever the input
contains a 0xFF byte. -/
theorem C9_write_return (w : WriterState) (data : List Nat) :
    (TelnetWriter.write w data).2 = data.length + data.count IAC ∧
    (IAC ∈ data → data.length < (TelnetWriter.write w data).2) := by
  constructor
  · simp [TelnetWriter.write, escapeIAC_length]
  · intro hm
    have hc : 0 < data.count IAC := List.count_pos_iff.mpr hm
    have h2 : (TelnetWriter.write w data).2 = data.length + data.count IAC := by
      simp [TelnetWriter.write, escapeIAC_length]
    omega

/-- Witness for C9 at the concrete input [0xFF, 0x41]: the return value
is 3, strictly more than the input length 2. -/
theorem C9_witness :
    (TelnetWriter.write { written := [], writeCalls := 0 } [IAC, 65]).2 = 3 ∧
    2 < (TelnetWriter.write { written := [], writeCalls := 0 } [IAC, 65]).2 := by
  have h := C9_write_return { written := [], writeCalls := 0 } [IAC, 65]
  exact ⟨by decide, h.2 (by decide)⟩

/-- C3: `_TelnetReader.read` with `n ≥ 0` (`readExact`) repeatedly fills
and classifies until CookedQueue holds at least `n` bytes or EndOfStream
is set, then returns and removes exactly the first
`min n (CookedQueue length)` bytes from the front of CookedQueue; it
returns fewer than `n` bytes only when EndOfStream was reached, and once
EndOfStream is set with nothing left to cook it returns an empty result
rather than looping. -/
theorem C3_readExact (s : TelnetState) (n : Nat) :
    (TelnetReader.read s n).1 = (readLoop (process_rawq s) n).cookedq.take n ∧
    (TelnetReader.read s n).2.cookedq = (readLoop (process_rawq s) n).cookedq.drop n ∧
    (TelnetReader.read s n).1.length = min n (readLoop (process_rawq s) n).cookedq.length ∧
    ((readLoop (process_rawq s) n).eof = true ∨
      n ≤ (readLoop (process_rawq s) n).cookedq.length) ∧
    ((TelnetReader.read s n).1.length < n → (readLoop (process_rawq s) n).eof = true) ∧
    (s.eof = true → (TelnetReader.read s n).1 = (process_rawq s).cookedq.take n) ∧
    (s.eof = true → (process_rawq s).cookedq = [] → (TelnetReader.read s n).1 = []) := by
  have hloop : s.eof = true → readLoop (process_rawq s) n = process_rawq s := by
    intro he
    exact readLoopFuel_of_eof _ _ n (by simp [he])
  have hlen : (TelnetReader.read s n).1.length =
      min n (readLoop (process_rawq s) n).cookedq.length := by
    simp [TelnetReader.read]
  refine ⟨rfl, rfl, hlen, readLoop_post _ n, ?_, ?_, ?_⟩
  · intro hlt
    rcases readLoop_post (process_rawq s) n with h | h
    · exact h
    · exfalso
      omega
  · intro he
    simp [TelnetReader.read, hloop he]
  · intro he hq
    simp [TelnetReader.read, hloop he, hq]

/-- State exercising C3 at a stream that has already ended. -/
def c3E : TelnetState :=
  { rawq := [65]
    cookedq := []
    pstate := PState.normal
    eof := true
    incoming := []
    events := [] }

/-- Witness for C3: on an ended stream holding one classifiable byte,
`read 5` returns that single byte, and the short return implies the loop
ended with EndOfStream set. -/
theorem C3_witness :
    (TelnetReader.read c3E 5).1 = [65] ∧
    (readLoop (process_rawq c3E) 5).eof = true ∧
    (TelnetReader.read c3E 5).1 = (process_rawq c3E).cookedq.take 5 := by
  have h := C3_readExact c3E 5
  exact ⟨by decide, h.2.2.2.2.1 (by decide), h.2.2.2.2.2.1 (by decide)⟩

/-- C4: `_TelnetReader.read1` at its default argument (`readAvailable`)
classifies the raw queue once, then returns and removes the entire
current contents of CookedQueue, leaving the pending network chunks and
the EndOfStream flag untouched (no network fill). -/
theorem C4_readAvailable (s : TelnetState) :
    (TelnetReader.read1Default s).1 = (process_rawq s).cookedq ∧
    (TelnetReader.read1Default s).2.cookedq = [] ∧
    (TelnetReader.read1Default s).2.incoming = s.incoming ∧
    (TelnetReader.read1Default s).2.eof = s.eof := by
  refine ⟨rfl, rfl, ?_, ?_⟩ <;>
    simp [TelnetReader.read1Default, TelnetReader.read_lazy]

/-- C6: `_TelnetReader.peek` with a negative (or omitted, defaulting to
-1) count returns the entire CookedQueue of the resulting state without
consuming any pending network chunk and without touching EndOfStream. -/
theorem C6_peek_negative (s : TelnetState) (n : Int) (h : n < 0) :
    (TelnetReader.peek s n true).1 = (TelnetReader.peek s n true).2.cookedq ∧
    (TelnetReader.peek s n true).2.incoming = s.incoming ∧
    (TelnetReader.peek s n true).2.eof = s.eof := by
  simp [TelnetReader.peek, h]

/-- State exercising C6. -/
def c6S : TelnetState :=
  { rawq := [65, 255, 255]
    cookedq := [1]
    pstate := PState.normal
    eof := false
    incoming := [[9]]
    events := [] }

/-- Witness for C6 at the default argument -1. -/
theorem C6_witness :
    (TelnetReader.peek c6S (-1) true).1 = (TelnetReader.peek c6S (-1) true).2.cookedq ∧
    (TelnetReader.peek c6S (-1) true).2.incoming = c6S.incoming ∧
    (TelnetReader.peek c6S (-1) true).2.eof = c6S.eof :=
  C6_peek_negative c6S (-1) (by decide)

/-- If CookedQueue already holds `n` bytes, the reader's loop is a
no-op. -/
theorem readLoopFuel_of_le (f : Nat) (s : TelnetState) (n : Nat)
    (h : n ≤ s.cookedq.length) : readLoopFuel f s n = s := by
  cases f with
  | zero => rfl
  | succ k =>
    have hng : ¬ (s.eof = false ∧ s.cookedq.length < n) := by
      rintro ⟨-, hlt⟩
      omega
    simp [readLoopFuel, hng]

/-- State refuting C5 as stated: one unclassified byte in RawQueue and
one pending network chunk. -/
def c5S : TelnetState :=
  { rawq := [65]
    cookedq := []
    pstate := PState.normal
    eof := false
    incoming := [[66]]
    events := [] }

/-- Counterexample to C5 as stated: at `c5S` with `n = 2`, `peek 2`
returns [65] but the subsequent `read 2` returns [65, 66] (the read loop
fills from the network), and `peek` itself changes the CookedQueue length
(classification moves the RawQueue byte into CookedQueue). -/
theorem C5_counterexample :
    ¬ ((TelnetReader.peek c5S 2 true).1 =
         (TelnetReader.read (TelnetReader.peek c5S 2 true).2 2).1 ∧
       (TelnetReader.peek c5S 2 true).2.cookedq.length = c5S.cookedq.length) := by
  decide

/-- C5 (amended): for every `n ≥ 0` and every reader state whose RawQueue
is empty and whose CookedQueue already holds at least `n` bytes, `peek n`
followed immediately by `readExact n` returns identical byte sequences;
the CookedQueue length after the peek is unchanged, and after the
subsequent read it has decreased by exactly the number of bytes
returned. -/
theorem C5_amended_peek_read (s : TelnetState) (n : Nat) (h1 : s.rawq = [])
    (h2 : n ≤ s.cookedq.length) :
    (TelnetReader.peek s (n : Int) true).1 =
      (TelnetReader.read (TelnetReader.peek s (n : Int) true).2 n).1 ∧
    (TelnetReader.peek s (n : Int) true).2.cookedq.length = s.cookedq.length ∧
    (TelnetReader.read (TelnetReader.peek s (n : Int) true).2 n).2.cookedq.length +
        (TelnetReader.read (TelnetReader.peek s (n : Int) true).2 n).1.length =
      s.cookedq.length := by
  have hps : process_rawq s = s := process_rawq_of_rawq_nil s h1
  have hpeek : TelnetReader.peek s (n : Int) true = (s.cookedq.take n, s) := by
    simp [TelnetReader.peek, hps]
  have hread : TelnetReader.read s n =
      (s.cookedq.take n, { s with cookedq := s.cookedq.drop n }) := by
    simp [TelnetReader.read, readLoop, hps, readLoopFuel_of_le _ s n h2]
  rw [hpeek]
  simp only [hread]
  refine ⟨trivial, trivial, ?_⟩
  simp only [List.length_drop, List.length_take]
  omega

/-- State exercising the amended C5. -/
def c5W : TelnetState :=
  { rawq := []
    cookedq := [10, 20, 30]
    pstate := PState.normal
    eof := false
    incoming := []
    events := [] }

/-- Witness for the amended C5 at `c5W` with `n = 2`. -/
theorem C5_witness :
    (TelnetReader.peek c5W ((2 : Nat) : Int) true).1 =
      (TelnetReader.read (TelnetReader.peek c5W ((2 : Nat) : Int) true).2 2).1 ∧
    (TelnetReader.peek c5W ((2 : Nat) : Int) true).2.cookedq.length = c5W.cookedq.length ∧
    (TelnetReader.read (TelnetReader.peek c5W ((2 : Nat) : Int) true).2 2).2.cookedq.length +
        (TelnetReader.read (TelnetReader.peek c5W ((2 : Nat) : Int) true).2 2).1.length =
      c5W.cookedq.length :=
  C5_amended_peek_read c5W 2 rfl (by decide)

/-- Each reader call hands the application a prefix of the total cooked
stream and leaves exactly the remainder pending. -/
theorem totalCooked_runOp (s : TelnetState) (op : ReadOp) :
    (runOp s op).1 ++ totalCooked (runOp s op).2 = totalCooked s := by
  cases op with
  | rexact n =>
    have h1 : totalCooked (readLoop (process_rawq s) n) = totalCooked s := by
      rw [totalCooked_readLoop, totalCooked_process_rawq]
    exact (totalCooked_split (readLoop (process_rawq s) n) n).trans h1
  | ravail =>
    show (process_rawq s).cookedq ++ totalCooked { process_rawq s with cookedq := [] } =
      totalCooked s
    have h : totalCooked { process_rawq s with cookedq := [] } =
        (runBytes (process_rawq s).pstate (pendingBytes (process_rawq s))).2.1 := rfl
    rw [h, ← totalCooked_process_rawq s]
    rfl
  | rone n =>
    have h1 : totalCooked (TelnetReader.read1Mid s n) = totalCooked s := by
      unfold TelnetReader.read1Mid
      split
      · rw [totalCooked_process_rawq, totalCooked_fill_rawq, totalCooked_process_rawq]
      · rw [totalCooked_process_rawq]
    exact (totalCooked_split (TelnetReader.read1Mid s n) n).trans h1

/-- C7: over any sequence of `readExact`, `readAvailable` and `read1`
calls, the concatenation of the returned byte sequences, in call order,
followed by what is still pending, is exactly the session's total cooked
byte stream — no gaps, no duplication, order preserved.  In particular,
once nothing is pending the concatenation equals the whole cooked
stream. -/
theorem C7_no_gaps (s : TelnetState) (ops : List ReadOp) :
    (runOps s ops).1 ++ totalCooked (runOps s ops).2 = totalCooked s := by
  induction ops generalizing s with
  | nil => simp [runOps, totalCooked]
  | cons op rest ih =>
    show ((runOp s op).1 ++ (runOps (runOp s op).2 rest).1) ++
        totalCooked (runOps (runOp s op).2 rest).2 = totalCooked s
    rw [List.append_assoc, ih, totalCooked_runOp]

/-- State showing `read1` may return fewer than `n` bytes with the stream
still open. -/
def c10E : TelnetState :=
  { rawq := []
    cookedq := []
    pstate := PState.normal
    eof := false
    incoming := [[65]]
    events := [] }

/-- C10: `_TelnetReader.read1` with `n ≥ 0` performs at most one network
fill: if after one classify CookedQueue still holds fewer than `n` bytes
and EndOfStream is not set, it consumes exactly one pending chunk and
classifies once more, then returns and removes the first
`min n (CookedQueue length)` bytes — so it may return fewer than `n`
bytes even though the stream has not ended. -/
theorem C10_read1 (s : TelnetState) (n : Nat) :
    (((process_rawq s).eof = true ∨ n ≤ (process_rawq s).cookedq.length) →
      TelnetReader.read1 s n =
        ((process_rawq s).cookedq.take n,
         { process_rawq s with cookedq := (process_rawq s).cookedq.drop n })) ∧
    ((process_rawq s).eof = false → (process_rawq s).cookedq.length < n →
      TelnetReader.read1 s n =
        ((process_rawq (fill_rawq (process_rawq s))).cookedq.take n,
         { process_rawq (fill_rawq (process_rawq s)) with
             cookedq := (process_rawq (fill_rawq (process_rawq s))).cookedq.drop n }) ∧
      (TelnetReader.read1 s n).2.incoming = s.incoming.tail) ∧
    s.incoming.length ≤ (TelnetReader.read1 s n).2.incoming.length + 1 ∧
    (TelnetReader.read1 s n).1.length = min n (TelnetReader.read1Mid s n).cookedq.length ∧
    (∃ t : TelnetState, ∃ m : Nat,
      (TelnetReader.read1 t m).1.length < m ∧ (TelnetReader.read1 t m).2.eof = false) := by
  refine ⟨?_, ?_, ?_, by simp [TelnetReader.read1], ⟨c10E, 5, by decide, by decide⟩⟩
  · intro hcase
    have hng : ¬ ((process_rawq s).eof = false ∧ (process_rawq s).cookedq.length < n) := by
      rintro ⟨he, hlt⟩
      rcases hcase with h | h
      · rw [he] at h
        exact Bool.false_ne_true h
      · omega
    have hmid : TelnetReader.read1Mid s n = process_rawq s := by
      unfold TelnetReader.read1Mid
      rw [if_neg hng]
    unfold TelnetReader.read1
    rw [hmid]
  · intro he hlt
    have hmid : TelnetReader.read1Mid s n = process_rawq (fill_rawq (process_rawq s)) := by
      unfold TelnetReader.read1Mid
      rw [if_pos ⟨he, hlt⟩]
    constructor
    · unfold TelnetReader.read1
      rw [hmid]
    · unfold TelnetReader.read1
      rw [hmid]
      simp
  · by_cases hg : (process_rawq s).eof = false ∧ (process_rawq s).cookedq.length < n
    · have hmid : TelnetReader.read1Mid s n = process_rawq (fill_rawq (process_rawq s)) := by
        unfold TelnetReader.read1Mid
        rw [if_pos hg]
      have hinc : (TelnetReader.read1 s n).2.incoming = s.incoming.tail := by
        unfold TelnetReader.read1
        rw [hmid]
        simp
      rw [hinc]
      have := List.length_tail s.incoming
      omega
    · have hmid : TelnetReader.read1Mid s n = process_rawq s := by
        unfold TelnetReader.read1Mid
        rw [if_neg hg]
      have hinc : (TelnetReader.read1 s n).2.incoming = s.incoming := by
        unfold TelnetReader.read1
        rw [hmid]
        simp
      rw [hinc]
      omega

/-- Witness for C10 at `c10E` with `n = 5`: the single-fill branch fires
and the call consumes exactly the one pending chunk. -/
theorem C10_witness :
    TelnetReader.read1 c10E 5 =
      ((process_rawq (fill_rawq (process_rawq c10E))).cookedq.take 5,
       { process_rawq (fill_rawq (process_rawq c10E)) with
           cookedq := (process_rawq (fill_rawq (process_rawq c10E))).cookedq.drop 5 }) ∧
    (TelnetReader.read1 c10E 5).2.incoming = c10E.incoming.tail :=
  (C10_read1 c10E 5).2.1 (by decide) (by decide)

end Telnetcmd
